import Mathlib

/-
  Verification of the MPN matcher core (web edition `app.py` and desktop
  edition `debug.py`).

  Python strings are embedded as `List Char`, Python floats as `ℚ`
  (exact rational arithmetic; the scores involved are small ratios),
  OCR confidences as `ℚ`.  Fallible lookups are `Option`.
-/

/-- Embedding of a Python `str` as its list of characters. -/
abbrev Str := List Char

/- ──────────────────────────  SimilarityScorer  ────────────────────────── -/

/-- Modelled from the spec: the matched-length computation of
`difflib.SequenceMatcher.get_matching_blocks` used by `match_ratio`
(`app.py` line 127, `debug.py` line 140) is library code that is not part of
this repository; §4.6 of the spec describes it as a greedy
longest-common-substring recursive matching algorithm.  `runLen x y` is the
length of the longest common prefix of `x` and `y`, i.e. the length of the
matching run starting at a fixed pair of positions. -/
def runLen : Str → Str → Nat
  | a :: as, b :: bs => if a = b then runLen as bs + 1 else 0
  | _, _ => 0

/-- Modelled from the spec: all candidate matching runs, one per pair of
start positions `(i, j)` in the two strings, each with its run length,
enumerated in increasing `i`, then increasing `j`. -/
def lcrCandidates (a b : Str) : List (Nat × Nat × Nat) :=
  (List.range a.length).flatMap
    (fun i => (List.range b.length).map
      (fun j => (i, j, runLen (a.drop i) (b.drop j))))

/-- Modelled from the spec: pick the first candidate of maximal run length
(the matcher prefers the lowest start positions among equally long runs). -/
def pickFirstMax : List (Nat × Nat × Nat) → Nat × Nat × Nat
  | [] => (0, 0, 0)
  | c :: cs =>
    let r := pickFirstMax cs
    if c.2.2 < r.2.2 then r else c

/-- Modelled from the spec: the longest common contiguous run of the two
strings, as a triple `(i, j, k)`: it starts at index `i` in the first
string, at index `j` in the second, and has length `k`; `(0, 0, 0)` when
no run exists. -/
def longestCommonRun (a b : Str) : Nat × Nat × Nat :=
  pickFirstMax (lcrCandidates a b)

theorem runLen_le_left : ∀ x y : Str, runLen x y ≤ x.length
  | [], _ => by simp [runLen]
  | _ :: _, [] => by simp [runLen]
  | a :: as, b :: bs => by
    simp only [runLen, List.length_cons]
    split
    · exact Nat.succ_le_succ (runLen_le_left as bs)
    · exact Nat.zero_le _

theorem runLen_le_right : ∀ x y : Str, runLen x y ≤ y.length
  | [], _ => by simp [runLen]
  | _ :: _, [] => by simp [runLen]
  | a :: as, b :: bs => by
    simp only [runLen, List.length_cons]
    split
    · exact Nat.succ_le_succ (runLen_le_right as bs)
    · exact Nat.zero_le _

theorem runLen_self : ∀ x : Str, runLen x x = x.length
  | [] => by simp [runLen]
  | a :: as => by simp [runLen, runLen_self as]

theorem runLen_append_self : ∀ (x s : Str), runLen x (x ++ s) = x.length
  | [], s => by simp [runLen]
  | a :: as, s => by simp [runLen, runLen_append_self as s]

theorem pickFirstMax_mem (cs : List (Nat × Nat × Nat)) :
    pickFirstMax cs = (0, 0, 0) ∨ pickFirstMax cs ∈ cs := by
  induction cs with
  | nil => exact Or.inl rfl
  | cons c cs ih =>
    simp only [pickFirstMax]
    split
    · rcases ih with h | h
      · exact Or.inl h
      · exact Or.inr (List.mem_cons_of_mem _ h)
    · exact Or.inr (List.mem_cons_self _ _)

theorem pickFirstMax_eq_head (c : Nat × Nat × Nat) (cs : List (Nat × Nat × Nat))
    (h : ∀ d ∈ cs, d.2.2 ≤ c.2.2) : pickFirstMax (c :: cs) = c := by
  simp only [pickFirstMax]
  rcases pickFirstMax_mem cs with hm | hm
  · rw [if_neg]
    rw [hm]
    exact Nat.not_lt.mpr (Nat.zero_le _)
  · rw [if_neg]
    exact Nat.not_lt.mpr (h _ hm)

theorem lcrCandidates_mem (a b : Str) {d : Nat × Nat × Nat}
    (hd : d ∈ lcrCandidates a b) :
    d.1 < a.length ∧ d.2.1 < b.length ∧
      d.2.2 = runLen (a.drop d.1) (b.drop d.2.1) := by
  simp only [lcrCandidates, List.mem_flatMap, List.mem_map, List.mem_range] at hd
  obtain ⟨i, hi, j, hj, rfl⟩ := hd
  exact ⟨hi, hj, rfl⟩

theorem lcr_bound_left (a b : Str) :
    (longestCommonRun a b).1 + (longestCommonRun a b).2.2 ≤ a.length := by
  simp only [longestCommonRun]
  rcases pickFirstMax_mem (lcrCandidates a b) with h | h
  · simp [h]
  · obtain ⟨h1, _, h3⟩ := lcrCandidates_mem a b h
    have hr := runLen_le_left (a.drop (pickFirstMax (lcrCandidates a b)).1)
      (b.drop (pickFirstMax (lcrCandidates a b)).2.1)
    rw [List.length_drop] at hr
    omega

theorem lcr_bound_right (a b : Str) :
    (longestCommonRun a b).2.1 + (longestCommonRun a b).2.2 ≤ b.length := by
  simp only [longestCommonRun]
  rcases pickFirstMax_mem (lcrCandidates a b) with h | h
  · simp [h]
  · obtain ⟨_, h2, h3⟩ := lcrCandidates_mem a b h
    have hr := runLen_le_right (a.drop (pickFirstMax (lcrCandidates a b)).1)
      (b.drop (pickFirstMax (lcrCandidates a b)).2.1)
    rw [List.length_drop] at hr
    omega

/-- Modelled from the spec: total length of the non-overlapping matching
runs: match the longest common run, then recurse on the left and the right
remainders of both strings, repeat until no run remains (§4.6; the sum of
`block.size` over `get_matching_blocks()[:-1]` in `app.py` line 127). -/
def matchedTotal (a b : Str) : Nat :=
  if h : (longestCommonRun a b).2.2 = 0 then 0
  else
    matchedTotal (a.take (longestCommonRun a b).1) (b.take (longestCommonRun a b).2.1)
      + (longestCommonRun a b).2.2
      + matchedTotal (a.drop ((longestCommonRun a b).1 + (longestCommonRun a b).2.2))
          (b.drop ((longestCommonRun a b).2.1 + (longestCommonRun a b).2.2))
termination_by a.length
decreasing_by
  · have hb := lcr_bound_left a b
    have h1 : (a.take (longestCommonRun a b).1).length ≤ (longestCommonRun a b).1 := by
      rw [List.length_take]
      exact inf_le_left
    omega
  · have hb := lcr_bound_left a b
    rw [List.length_drop]
    omega

theorem matchedTotal_nil_left (b : Str) : matchedTotal [] b = 0 := by
  rw [matchedTotal]
  rw [dif_pos]
  have h := lcr_bound_left [] b
  simp only [List.length_nil] at h
  omega

theorem matchedTotal_nil_right (a : Str) : matchedTotal a [] = 0 := by
  rw [matchedTotal]
  rw [dif_pos]
  have h := lcr_bound_right a []
  simp only [List.length_nil] at h
  omega

theorem lcr_of_full (a b : Str) (ha : a ≠ []) (hb : b ≠ [])
    (h : runLen a b = a.length) : longestCommonRun a b = (0, 0, a.length) := by
  obtain ⟨a0, as, rfl⟩ := List.exists_cons_of_ne_nil ha
  obtain ⟨b0, bs, rfl⟩ := List.exists_cons_of_ne_nil hb
  have hall : ∀ d ∈ lcrCandidates (a0 :: as) (b0 :: bs), d.2.2 ≤ (a0 :: as).length := by
    intro d hd
    obtain ⟨h1, _, h3⟩ := lcrCandidates_mem _ _ hd
    have := runLen_le_left ((a0 :: as).drop d.1) ((b0 :: bs).drop d.2.1)
    rw [List.length_drop] at this
    omega
  have hcand : lcrCandidates (a0 :: as) (b0 :: bs)
      = (0, 0, runLen (a0 :: as) (b0 :: bs))
        :: ((List.map Nat.succ (List.range bs.length)).map
              (fun j => (0, j, runLen (a0 :: as) ((b0 :: bs).drop j)))
            ++ (List.map Nat.succ (List.range as.length)).flatMap
              (fun i => (List.range (b0 :: bs).length).map
                (fun j => (i, j, runLen ((a0 :: as).drop i) ((b0 :: bs).drop j))))) := by
    simp only [lcrCandidates, List.length_cons, List.range_succ_eq_map,
      List.flatMap_cons, List.map_cons, List.drop_zero, List.cons_append]
  rw [longestCommonRun, hcand]
  rw [pickFirstMax_eq_head]
  · rw [h]
  · intro d hd
    have hd2 : d ∈ lcrCandidates (a0 :: as) (b0 :: bs) := by
      rw [hcand]
      exact List.mem_cons_of_mem _ hd
    have := hall d hd2
    simp only [h]
    exact this

theorem matchedTotal_full (a b : Str) (ha : a ≠ []) (hb : b ≠ [])
    (h : runLen a b = a.length) : matchedTotal a b = a.length := by
  have hl := lcr_of_full a b ha hb h
  rw [matchedTotal, hl]
  have hne : a.length ≠ 0 := by
    cases a
    · exact absurd rfl ha
    · simp
  rw [dif_neg hne]
  simp only [List.take_zero, Nat.zero_add, List.drop_length,
    matchedTotal_nil_left, matchedTotal_nil_right]
  omega

theorem matchedTotal_le_right_aux :
    ∀ (n : Nat) (a b : Str), a.length ≤ n → matchedTotal a b ≤ b.length := by
  intro n
  induction n with
  | zero =>
    intro a b hl
    have ha : a = [] := List.eq_nil_of_length_eq_zero (Nat.le_zero.mp hl)
    rw [ha, matchedTotal_nil_left]
    exact Nat.zero_le _
  | succ n ih =>
    intro a b hl
    rw [matchedTotal]
    split
    · exact Nat.zero_le _
    · rename_i hk
      have hb1 := lcr_bound_left a b
      have hb2 := lcr_bound_right a b
      have hr1 : matchedTotal (a.take (longestCommonRun a b).1)
          (b.take (longestCommonRun a b).2.1) ≤ (b.take (longestCommonRun a b).2.1).length := by
        apply ih
        have := List.length_take_le (longestCommonRun a b).1 a
        omega
      have hr2 : matchedTotal
          (a.drop ((longestCommonRun a b).1 + (longestCommonRun a b).2.2))
          (b.drop ((longestCommonRun a b).2.1 + (longestCommonRun a b).2.2))
          ≤ (b.drop ((longestCommonRun a b).2.1 + (longestCommonRun a b).2.2)).length := by
        apply ih
        rw [List.length_drop]
        omega
      have ht : (b.take (longestCommonRun a b).2.1).length ≤ (longestCommonRun a b).2.1 :=
        List.length_take_le _ _
      rw [List.length_drop] at hr2
      omega

theorem matchedTotal_le_right (a b : Str) : matchedTotal a b ≤ b.length :=
  matchedTotal_le_right_aux a.length a b (Nat.le_refl _)

theorem matchedTotal_le_left_aux :
    ∀ (n : Nat) (a b : Str), a.length ≤ n → matchedTotal a b ≤ a.length := by
  intro n
  induction n with
  | zero =>
    intro a b hl
    have ha : a = [] := List.eq_nil_of_length_eq_zero (Nat.le_zero.mp hl)
    rw [ha, matchedTotal_nil_left]
    exact Nat.zero_le _
  | succ n ih =>
    intro a b hl
    rw [matchedTotal]
    split
    · exact Nat.zero_le _
    · rename_i hk
      have hb1 := lcr_bound_left a b
      have hr1 : matchedTotal (a.take (longestCommonRun a b).1)
          (b.take (longestCommonRun a b).2.1) ≤ (a.take (longestCommonRun a b).1).length := by
        apply ih
        have := List.length_take_le (longestCommonRun a b).1 a
        omega
      have hr2 : matchedTotal
          (a.drop ((longestCommonRun a b).1 + (longestCommonRun a b).2.2))
          (b.drop ((longestCommonRun a b).2.1 + (longestCommonRun a b).2.2))
          ≤ (a.drop ((longestCommonRun a b).1 + (longestCommonRun a b).2.2)).length := by
        apply ih
        rw [List.length_drop]
        omega
      have ht : (a.take (longestCommonRun a b).1).length ≤ (longestCommonRun a b).1 :=
        List.length_take_le _ _
      rw [List.length_drop] at hr2
      omega

theorem matchedTotal_le_left (a b : Str) : matchedTotal a b ≤ a.length :=
  matchedTotal_le_left_aux a.length a b (Nat.le_refl _)

/-- `match_ratio` of `app.py` lines 125-128 and `debug.py` lines 138-141:
the matched length divided by `max(len(target), 1)`, times 100.  The float
division is modelled exactly in `ℚ`. -/
def match_ratio (target candidate : Str) : ℚ :=
  ((matchedTotal target candidate : ℚ) / ((max target.length 1 : Nat) : ℚ)) * 100

theorem match_ratio_of_full (a b : Str) (ha : a ≠ []) (hb : b ≠ [])
    (h : runLen a b = a.length) : match_ratio a b = 100 := by
  rw [match_ratio, matchedTotal_full a b ha hb h]
  have hl : 1 ≤ a.length := List.length_pos.mpr ha
  have hm : (max a.length 1 : Nat) = a.length := by omega
  rw [hm]
  have hq : (a.length : ℚ) ≠ 0 := Nat.cast_ne_zero.mpr (by omega)
  field_simp

/-- C1: for every non-empty string `target`, the similarity scorer applied
to the target against itself returns exactly 100:
`match_ratio(target, target) == 100`. -/
theorem similarityScorer_self_is_100 (target : Str) (h : target ≠ []) :
    match_ratio target target = 100 :=
  match_ratio_of_full target target h h (runLen_self target)

theorem similarityScorer_self_is_100_witness :
    (['M', 'P', 'N', '1'] : Str) ≠ [] ∧
      match_ratio ['M', 'P', 'N', '1'] ['M', 'P', 'N', '1'] = 100 :=
  ⟨by decide, similarityScorer_self_is_100 ['M', 'P', 'N', '1'] (by decide)⟩

/-- C2: for every non-empty `target`, `match_ratio(target, target + "XYZ")`
(trailing garbage appended to the candidate) equals 100, while
`match_ratio(target, target[:-1])` (candidate missing the last character of
the target) is strictly less than 100. -/
theorem similarityScorer_asymmetry (target : Str) (h : target ≠ []) :
    match_ratio target (target ++ ['X', 'Y', 'Z']) = 100 ∧
      match_ratio target target.dropLast < 100 := by
  constructor
  · refine match_ratio_of_full _ _ h ?_ (runLen_append_self target _)
    cases target
    · exact absurd rfl h
    · simp
  · rw [match_ratio]
    have hm := matchedTotal_le_right target target.dropLast
    rw [List.length_dropLast] at hm
    have hl : 1 ≤ target.length := List.length_pos.mpr h
    have hmax : (max target.length 1 : Nat) = target.length := by omega
    rw [hmax]
    have hpos : (0 : ℚ) < (target.length : ℚ) := by
      exact_mod_cast (by omega : 0 < target.length)
    have hlt : (matchedTotal target target.dropLast : ℚ) / (target.length : ℚ) < 1 := by
      rw [div_lt_one hpos]
      exact_mod_cast (by omega : matchedTotal target target.dropLast < target.length)
    linarith

theorem similarityScorer_asymmetry_witness :
    (['A', 'B'] : Str) ≠ [] ∧
      match_ratio ['A', 'B'] (['A', 'B'] ++ ['X', 'Y', 'Z']) = 100 ∧
      match_ratio ['A', 'B'] (['A', 'B'] : Str).dropLast < 100 :=
  ⟨by decide, (similarityScorer_asymmetry ['A', 'B'] (by decide)).1,
    (similarityScorer_asymmetry ['A', 'B'] (by decide)).2⟩

/-- C9: `match_ratio` is a total function whose value lies in `[0, 100]`
for every pair of strings; the division is guarded by `max(len(target), 1)`,
so an empty target yields 0 rather than a division-by-zero error. -/
theorem match_ratio_total_and_in_range (a b : Str) :
    0 ≤ match_ratio a b ∧ match_ratio a b ≤ 100 ∧ match_ratio [] b = 0 := by
  refine ⟨?_, ?_, ?_⟩
  · rw [match_ratio]
    positivity
  · rw [match_ratio]
    have hm : matchedTotal a b ≤ max a.length 1 :=
      le_trans (matchedTotal_le_left a b) (le_max_left _ _)
    have hpos : (0 : ℚ) < ((max a.length 1 : Nat) : ℚ) := by
      exact_mod_cast (by omega : 0 < max a.length 1)
    have hd : (matchedTotal a b : ℚ) / ((max a.length 1 : Nat) : ℚ) ≤ 1 := by
      rw [div_le_one hpos]
      exact_mod_cast hm
    linarith
  · rw [match_ratio, matchedTotal_nil_left]
    norm_num

/- ──────────────────────────  MatchClassifier  ────────────────────────── -/

/-- The three display tiers of §4.7: EXACT (green), STRONG (white),
WEAK (red). -/
inductive Tier where
  | EXACT : Tier
  | STRONG : Tier
  | WEAK : Tier
deriving DecidableEq

/-- Classification at the web call site, `app.py` lines 168-173:
`best == 100` is EXACT (green), else `best >= 85` is STRONG (white),
else WEAK (red). -/
def classify_app (best : ℚ) : Tier :=
  if best = 100 then Tier.EXACT
  else if 85 ≤ best then Tier.STRONG
  else Tier.WEAK

/-- Classification at the desktop call site, `debug.py` lines 527-534
(applied to the rounded best percentage): `best_pct >= 100.0` is EXACT,
else `best_pct >= 80.0` is STRONG, else WEAK. -/
def classify_debug (best_pct : ℚ) : Tier :=
  if 100 ≤ best_pct then Tier.EXACT
  else if 80 ≤ best_pct then Tier.STRONG
  else Tier.WEAK

/-- C4 counterexample: the two call sites do not use one single
`highThreshold`: at score 80 the web site classifies WEAK while the desktop
site classifies STRONG. -/
theorem classifier_threshold_mismatch :
    classify_app 80 = Tier.WEAK ∧ classify_debug 80 = Tier.STRONG := by
  constructor <;> norm_num [classify_app, classify_debug]

/-- C4 as amended: each call site maps the best score to exactly one of the
three tiers, but with its own threshold: the web site (`app.py`) uses
`s == 100 → EXACT`, else `s ≥ 85 → STRONG`, else WEAK; the desktop site
(`debug.py`) uses `s ≥ 100 → EXACT`, else `s ≥ 80 → STRONG`, else WEAK.
At each site, `classify(100) = EXACT`, `classify(threshold) = STRONG` and
`classify(threshold - 0.1) = WEAK` hold for that site's own threshold
(85 resp. 80). -/
theorem classifier_per_site (s : ℚ) :
    (classify_app s = Tier.EXACT ↔ s = 100) ∧
    (classify_app s = Tier.STRONG ↔ s ≠ 100 ∧ 85 ≤ s) ∧
    (classify_app s = Tier.WEAK ↔ s ≠ 100 ∧ s < 85) ∧
    (classify_debug s = Tier.EXACT ↔ 100 ≤ s) ∧
    (classify_debug s = Tier.STRONG ↔ 80 ≤ s ∧ s < 100) ∧
    (classify_debug s = Tier.WEAK ↔ s < 80) ∧
    classify_app 100 = Tier.EXACT ∧ classify_app 85 = Tier.STRONG ∧
    classify_app (85 - 1/10) = Tier.WEAK ∧ classify_debug 100 = Tier.EXACT ∧
    classify_debug 80 = Tier.STRONG ∧ classify_debug (80 - 1/10) = Tier.WEAK := by
  have e1 : classify_app s = Tier.EXACT ↔ s = 100 := by
    unfold classify_app
    split_ifs with h1 h2 <;> simp [h1]
  have e2 : classify_app s = Tier.STRONG ↔ s ≠ 100 ∧ 85 ≤ s := by
    unfold classify_app
    split_ifs with h1 h2
    · simp [h1]
    · simp [h1, h2]
    · simp [h2]
  have e3 : classify_app s = Tier.WEAK ↔ s ≠ 100 ∧ s < 85 := by
    unfold classify_app
    split_ifs with h1 h2
    · simp [h1]
    · have hx : ¬ s < 85 := not_lt.mpr h2
      simp [h1, hx]
    · have hx : s < 85 := not_le.mp h2
      simp [h1, hx]
  have e4 : classify_debug s = Tier.EXACT ↔ 100 ≤ s := by
    unfold classify_debug
    split_ifs with h1 h2 <;> simp [h1]
  have e5 : classify_debug s = Tier.STRONG ↔ 80 ≤ s ∧ s < 100 := by
    unfold classify_debug
    split_ifs with h1 h2
    · have hx : ¬ s < 100 := not_lt.mpr h1
      simp [hx]
    · have hx : s < 100 := not_le.mp h1
      simp [h2, hx]
    · simp [h2]
  have e6 : classify_debug s = Tier.WEAK ↔ s < 80 := by
    unfold classify_debug
    split_ifs with h1 h2
    · have hx : ¬ s < 80 := not_lt.mpr (by linarith)
      simp [hx]
    · have hx : ¬ s < 80 := not_lt.mpr h2
      simp [hx]
    · simp [not_le.mp h2]
  refine ⟨e1, e2, e3, e4, e5, e6, ?_, ?_, ?_, ?_, ?_, ?_⟩ <;>
    norm_num [classify_app, classify_debug]

/- ─────────────  CandidateNormalizer and CandidateDeduper  ────────────── -/

/-- `txt.upper().replace(" ", "")` of `app.py` line 111 / `debug.py`
line 127: uppercase the text and remove all space characters (ASCII model
of Python uppercasing). -/
def normText (txt : Str) : Str :=
  (txt.map Char.toUpper).filter (fun c => decide (c ≠ ' '))

/-- The candidate-filtering loop of `extract_part_numbers_file`
(`app.py` lines 97-113) / `extract_part_numbers` (`debug.py` lines
123-129): drop a detection when its confidence is below the threshold,
normalize its text, and keep it when the normalized text is long enough
and contains a digit. -/
def buildCandidates (raw : List (Str × ℚ)) (min_length : Nat)
    (conf_threshold : ℚ) : List (Str × ℚ) :=
  raw.filterMap (fun p =>
    if p.2 < conf_threshold then none
    else
      if min_length ≤ (normText p.1).length ∧ (normText p.1).any Char.isDigit
      then some (normText p.1, p.2)
      else none)

/-- The seen-set duplicate-removal loop of `app.py` lines 116-121 /
`debug.py` lines 130-135: keep the first occurrence of each text. -/
def dedupeSeen : List (Str × ℚ) → List Str → List (Str × ℚ)
  | [], _ => []
  | p :: rest, seen =>
    if p.1 ∈ seen then dedupeSeen rest seen
    else p :: dedupeSeen rest (p.1 :: seen)

/-- `sorted(candidates, key=lambda x: -x[1])` (stable sort by descending
confidence) followed by the first-wins duplicate removal of
`app.py` lines 115-122. -/
def dedupeByScore (candidates : List (Str × ℚ)) : List (Str × ℚ) :=
  dedupeSeen (candidates.mergeSort (fun x y => decide (y.2 ≤ x.2))) []

/-- The normalize-then-dedupe pipeline of `extract_part_numbers_file`
(`app.py` lines 95-122), taking the raw `(text, confidence)` detections
already adapted from the OCR collaborator. -/
def extract_part_numbers (raw : List (Str × ℚ)) (min_length : Nat)
    (conf_threshold : ℚ) : List (Str × ℚ) :=
  dedupeByScore (buildCandidates raw min_length conf_threshold)

theorem dedupeSeen_mem : ∀ (l : List (Str × ℚ)) (seen : List Str),
    ∀ y ∈ dedupeSeen l seen, y ∈ l ∧ y.1 ∉ seen
  | [], seen => by simp [dedupeSeen]
  | p :: rest, seen => by
    intro y hy
    rw [dedupeSeen] at hy
    split at hy
    · obtain ⟨h1, h2⟩ := dedupeSeen_mem rest seen y hy
      exact ⟨List.mem_cons_of_mem _ h1, h2⟩
    · rcases List.mem_cons.mp hy with rfl | hy2
      · exact ⟨List.mem_cons_self _ _, by assumption⟩
      · obtain ⟨h1, h2⟩ := dedupeSeen_mem rest (p.1 :: seen) y hy2
        exact ⟨List.mem_cons_of_mem _ h1, fun hc => h2 (List.mem_cons_of_mem _ hc)⟩

theorem dedupeSeen_nodup : ∀ (l : List (Str × ℚ)) (seen : List Str),
    ((dedupeSeen l seen).map Prod.fst).Nodup
  | [], seen => by simp [dedupeSeen]
  | p :: rest, seen => by
    rw [dedupeSeen]
    split
    · exact dedupeSeen_nodup rest seen
    · rw [List.map_cons, List.nodup_cons]
      constructor
      · intro hc
        obtain ⟨y, hy, hyp⟩ := List.mem_map.mp hc
        have := (dedupeSeen_mem rest (p.1 :: seen) y hy).2
        exact this (by rw [hyp]; exact List.mem_cons_self _ _)
      · exact dedupeSeen_nodup rest (p.1 :: seen)

theorem dedupeSeen_sublist : ∀ (l : List (Str × ℚ)) (seen : List Str),
    (dedupeSeen l seen).Sublist l
  | [], seen => by simp [dedupeSeen]
  | p :: rest, seen => by
    rw [dedupeSeen]
    split
    · exact (dedupeSeen_sublist rest seen).cons p
    · exact (dedupeSeen_sublist rest (p.1 :: seen)).cons₂ p

theorem dedupeSeen_best : ∀ (l : List (Str × ℚ)) (seen : List Str),
    l.Pairwise (fun x y => y.2 ≤ x.2) →
    ∀ x ∈ l, x.1 ∉ seen → ∀ y ∈ dedupeSeen l seen, x.1 = y.1 → x.2 ≤ y.2
  | [], seen => by simp [dedupeSeen]
  | p :: rest, seen => by
    intro hp x hx hxs y hy hxy
    rw [dedupeSeen] at hy
    split at hy
    · rcases List.mem_cons.mp hx with rfl | hx2
      · exact absurd (by assumption) hxs
      · exact dedupeSeen_best rest seen hp.of_cons x hx2 hxs y hy hxy
    · rcases List.mem_cons.mp hy with rfl | hy2
      · rcases List.mem_cons.mp hx with rfl | hx2
        · exact le_refl _
        · exact (List.pairwise_cons.mp hp).1 x hx2
      · have hne : y.1 ∉ p.1 :: seen := (dedupeSeen_mem rest (p.1 :: seen) y hy2).2
        rcases List.mem_cons.mp hx with rfl | hx2
        · exact absurd (hxy ▸ List.mem_cons_self _ _) hne
        · have hxp : x.1 ∉ p.1 :: seen := by
            intro hc
            rcases List.mem_cons.mp hc with he | he
            · exact hne (hxy ▸ he ▸ List.mem_cons_self _ _)
            · exact hxs he
          exact dedupeSeen_best rest (p.1 :: seen) hp.of_cons x hx2 hxp y hy2 hxy

theorem mergeSort_desc_pairwise (l : List (Str × ℚ)) :
    (l.mergeSort (fun x y => decide (y.2 ≤ x.2))).Pairwise (fun x y => y.2 ≤ x.2) := by
  have h := @List.sorted_mergeSort (Str × ℚ)
    (fun x y => decide (y.2 ≤ x.2))
    (fun a b c hab hbc => by
      simp only [decide_eq_true_eq] at *
      exact le_trans hbc hab)
    (fun a b => by
      simp only [Bool.or_eq_true, decide_eq_true_eq]
      exact le_total b.2 a.2)
    l
  exact h.imp (fun hab => by simpa using hab)

/-- C5: for every input sequence of normalized candidates, the deduper's
output contains no two entries with equal text, each retained entry's
confidence is at least the confidence of every input entry with the same
text (in particular of every dropped duplicate), and the output is ordered
by descending confidence. -/
theorem candidateDeduper_spec (cands : List (Str × ℚ)) :
    ((dedupeByScore cands).map Prod.fst).Nodup ∧
      (∀ x ∈ cands, ∀ y ∈ dedupeByScore cands, x.1 = y.1 → x.2 ≤ y.2) ∧
      (dedupeByScore cands).Pairwise (fun x y => y.2 ≤ x.2) := by
  refine ⟨dedupeSeen_nodup _ _, ?_, ?_⟩
  · intro x hx y hy hxy
    have hxm : x ∈ cands.mergeSort (fun x y => decide (y.2 ≤ x.2)) :=
      (List.mergeSort_perm cands _).mem_iff.mpr hx
    exact dedupeSeen_best _ [] (mergeSort_desc_pairwise cands) x hxm
      (by simp) y hy hxy
  · exact List.Pairwise.sublist (dedupeSeen_sublist _ _) (mergeSort_desc_pairwise cands)

theorem candidateDeduper_spec_witness :
    ((['A', '1'], (1 : ℚ)/2) : Str × ℚ).2 ≤ ((['A', '1'], (1 : ℚ)/2) : Str × ℚ).2 := by
  have hout : dedupeByScore [((['A', '1'], (1 : ℚ)/2) : Str × ℚ)]
      = [((['A', '1'], (1 : ℚ)/2) : Str × ℚ)] := by
    simp [dedupeByScore, dedupeSeen]
  refine (candidateDeduper_spec [((['A', '1'], (1 : ℚ)/2) : Str × ℚ)]).2.1
    ((['A', '1'], (1 : ℚ)/2) : Str × ℚ) (by simp)
    ((['A', '1'], (1 : ℚ)/2) : Str × ℚ) ?_ rfl
  rw [hout]
  simp

/-- C6: the normalizer keeps a raw `(text, confidence)` pair exactly when,
after uppercasing and removing spaces, the normalized text has length at
least `min_length`, contains at least one digit, and the confidence is at
least `conf_threshold`; kept pairs carry the normalized text. -/
theorem candidateNormalizer_keep_iff (raw : List (Str × ℚ)) (min_length : Nat)
    (conf_threshold : ℚ) :
    buildCandidates raw min_length conf_threshold =
      (raw.filter (fun p => decide (conf_threshold ≤ p.2
          ∧ min_length ≤ (normText p.1).length
          ∧ (normText p.1).any Char.isDigit))).map
        (fun p => (normText p.1, p.2)) := by
  induction raw with
  | nil => rfl
  | cons p rest ih =>
    rw [buildCandidates] at ih ⊢
    rw [List.filterMap_cons, List.filter_cons]
    by_cases hc : p.2 < conf_threshold
    · have hb : decide (conf_threshold ≤ p.2
          ∧ min_length ≤ (normText p.1).length
          ∧ (normText p.1).any Char.isDigit) = false := by
        simp only [decide_eq_false_iff_not]
        intro hcontra
        exact absurd hcontra.1 (not_le.mpr hc)
      rw [if_pos hc, hb]
      simpa using ih
    · by_cases hk : min_length ≤ (normText p.1).length ∧ (normText p.1).any Char.isDigit
      · have hb : decide (conf_threshold ≤ p.2
            ∧ min_length ≤ (normText p.1).length
            ∧ (normText p.1).any Char.isDigit) = true := by
          simp only [decide_eq_true_eq]
          exact ⟨not_lt.mp hc, hk.1, hk.2⟩
        rw [if_neg hc, if_pos hk, hb]
        simpa using ih
      · have hb : decide (conf_threshold ≤ p.2
            ∧ min_length ≤ (normText p.1).length
            ∧ (normText p.1).any Char.isDigit) = false := by
          simp only [decide_eq_false_iff_not]
          intro hcontra
          exact hk ⟨hcontra.2.1, hcontra.2.2⟩
        rw [if_neg hc, if_neg hk, hb]
        simpa using ih

/- ─────────────────  InvoiceParser: text-level helpers  ───────────────── -/

/-- Python regex `\s` (ASCII part: space, tab, newline, vertical tab,
form feed, carriage return). -/
def isPySpace (c : Char) : Bool :=
  c == ' ' || c == '\t' || c == '\n' || c == '\x0b' || c == '\x0c' || c == '\r'

/-- Python regex `\w` (ASCII part: letters, digits, underscore), used for
the `\b` word boundaries. -/
def isWordChar (c : Char) : Bool := c.isAlphanum || c == '_'

/-- Length of the maximal prefix of the string whose characters satisfy
`p`: the greedy match of a character-class repetition. -/
def classRun (p : Char → Bool) : Str → Nat
  | [] => 0
  | c :: rest => if p c then classRun p rest + 1 else 0

/-- The line-boundary characters recognised by Python `str.splitlines()`. -/
def lineBoundaryChars : Str :=
  ['\n', '\r', '\x0b', '\x0c', '\x1c', '\x1d', '\x1e', '\x85', '\u2028', '\u2029']

/-- Whether a character is a `str.splitlines()` line boundary. -/
def isLineBoundary (c : Char) : Bool := lineBoundaryChars.contains c

/-- Python `str.splitlines()` (`app.py` line 57): split at every line
boundary, treating `\r\n` as one boundary; no trailing empty line for a
trailing boundary. -/
def splitlines : Str → List Str
  | [] => []
  | '\r' :: '\n' :: rest => [] :: splitlines rest
  | c :: rest =>
    if isLineBoundary c then [] :: splitlines rest
    else
      match splitlines rest with
      | [] => [[c]]
      | l :: ls => (c :: l) :: ls

/-- The trailing `\b` of a pattern ending in a word character: end of the
string, or a non-word character next. -/
def endBoundary : Str → Bool
  | [] => true
  | c :: _ => !(isWordChar c)

/-- One attempt of the reference-identifier pattern
`\b\d{6}-\d+(?:\.\d+)?\b` (`app.py` line 58) at a fixed position:
`prevWord` says whether the character before the position is a word
character (the leading `\b`).  Returns the match length, if any,
replaying the regex engine's backtracking: the optional `(?:\.\d+)?` is
taken greedily when the trailing `\b` still holds after it and dropped
otherwise (a following `.` is itself a non-word character, so after
dropping the group the boundary holds). -/
def matchRefAt (prevWord : Bool) (u : Str) : Option Nat :=
  if prevWord then none
  else
    match u with
    | c1 :: c2 :: c3 :: c4 :: c5 :: c6 :: '-' :: w =>
      if c1.isDigit && c2.isDigit && c3.isDigit && c4.isDigit
          && c5.isDigit && c6.isDigit then
        let d := classRun Char.isDigit w
        if d = 0 then none
        else
          match w.drop d with
          | '.' :: w2 =>
            let e := classRun Char.isDigit w2
            if 0 < e ∧ endBoundary (w2.drop e) then some (7 + d + 1 + e)
            else some (7 + d)
          | v => if endBoundary v then some (7 + d) else none
      else none
    | _ => none

/-- The left-to-right non-overlapping scan of `re.findall` for the
reference-identifier pattern: try the pattern at every position; on a
match of length `k` record `(position, matched text)` and resume right
after it (the last matched character is a digit, so `prevWord` becomes
true); `fuel` bounds the number of remaining characters and makes the
recursion structural. -/
def scanRefs : Nat → Bool → Nat → Str → List (Nat × Str)
  | 0, _, _, _ => []
  | _ + 1, _, _, [] => []
  | fuel + 1, prevWord, pos, c :: rest =>
    match matchRefAt prevWord (c :: rest) with
    | some k =>
      (pos, (c :: rest).take k) :: scanRefs fuel true (pos + k) ((c :: rest).drop k)
    | none => scanRefs fuel (isWordChar c) (pos + 1) rest

/-- `re.findall(r'\b\d{6}-\d+(?:\.\d+)?\b', text)` (`app.py` line 58),
paired with the start position of each match. -/
def findallRefs (text : Str) : List (Nat × Str) :=
  scanRefs text.length false 0 text

/-- The `unique_refs` accumulation loop of `app.py` lines 59-62: append
each reference that is not already collected. -/
def uniqueRefsLoop : List Str → List Str → List Str
  | [], acc => acc
  | r :: rest, acc =>
    if r ∈ acc then uniqueRefsLoop rest acc
    else uniqueRefsLoop rest (acc ++ [r])

/-- Structural companion of `uniqueRefsLoop`: first occurrence of each
element is kept, with the already-seen elements passed separately. -/
def dedupFirst : List Str → List Str → List Str
  | [], _ => []
  | r :: rest, seen =>
    if r ∈ seen then dedupFirst rest seen
    else r :: dedupFirst rest (r :: seen)

theorem dedupFirst_congr : ∀ (l s1 s2 : List Str),
    (∀ x, x ∈ s1 ↔ x ∈ s2) → dedupFirst l s1 = dedupFirst l s2
  | [], _, _, _ => rfl
  | r :: rest, s1, s2, h => by
    rw [dedupFirst, dedupFirst]
    by_cases hr : r ∈ s1
    · rw [if_pos hr, if_pos ((h r).mp hr)]
      exact dedupFirst_congr rest s1 s2 h
    · rw [if_neg hr, if_neg (fun hc => hr ((h r).mpr hc))]
      rw [dedupFirst_congr rest (r :: s1) (r :: s2)
        (fun x => by simp [List.mem_cons, h x])]

theorem uniqueRefsLoop_eq_dedupFirst : ∀ (l acc : List Str),
    uniqueRefsLoop l acc = acc ++ dedupFirst l acc
  | [], acc => by simp [uniqueRefsLoop, dedupFirst]
  | r :: rest, acc => by
    rw [uniqueRefsLoop, dedupFirst]
    by_cases hr : r ∈ acc
    · rw [if_pos hr, if_pos hr]
      exact uniqueRefsLoop_eq_dedupFirst rest acc
    · rw [if_neg hr, if_neg hr]
      rw [uniqueRefsLoop_eq_dedupFirst rest (acc ++ [r])]
      rw [dedupFirst_congr rest (acc ++ [r]) (r :: acc)
        (fun x => by simp [List.mem_append, List.mem_cons, or_comm])]
      simp

/- ─────────────  InvoiceParser: field extraction (FieldExtractor)  ────── -/

/-- Characters of the quantity class `[\d,]`. -/
def qtyChar (c : Char) : Bool := c.isDigit || c == ','

/-- The literal `PCS` of the quantity pattern. -/
def pcsLit : Str := "PCS".data

/-- `re.search(r"([\d,]+)\s+PCS", window)` (`app.py` line 70): leftmost
position where a digit/comma run, at least one whitespace character, and
the literal `PCS` match in sequence; the group is the digit/comma run.
Greedy runs need no backtracking here: a shorter run would leave a
same-class character where the next piece expects another class. -/
def searchQtyF : Nat → Str → Option Str
  | 0, _ => none
  | _ + 1, [] => none
  | fuel + 1, c :: rest =>
    let u := c :: rest
    let d := classRun qtyChar u
    let w := classRun isPySpace (u.drop d)
    if 0 < d ∧ 0 < w ∧ pcsLit.isPrefixOf (u.drop (d + w)) then some (u.take d)
    else searchQtyF fuel rest

def searchQty (window : Str) : Option Str := searchQtyF window.length window

/-- Case-insensitive literal comparison (`re.IGNORECASE`, ASCII case
folding). -/
def ciPrefixCmp : Str → Str → Bool
  | [], _ => true
  | _ :: _, [] => false
  | a :: as, b :: bs => (a.toLower == b.toLower) && ciPrefixCmp as bs

/-- The label literal of the MPN pattern. -/
def mpnLabel : Str := "Manuf. Part#".data

/-- One attempt of `^Manuf\. Part#\s*:\s*(\S+)` at a line start: the
label, a greedy whitespace run (it may span line breaks), a colon, a
second greedy whitespace run, then the captured maximal non-whitespace
run, which must be non-empty. -/
def tryMpnAt (u : Str) : Option Str :=
  if mpnLabel.isPrefixOf u then
    let u1 := u.drop mpnLabel.length
    match u1.drop (classRun isPySpace u1) with
    | ':' :: u2 =>
      let v := u2.drop (classRun isPySpace u2)
      let g := classRun (fun ch => !(isPySpace ch)) v
      if 0 < g then some (v.take g) else none
    | _ => none
  else none

/-- `re.search(r"^Manuf\. Part#\s*:\s*(\S+)", window, re.M)` (`app.py`
line 71): the pattern is tried at the window start and after every
newline. -/
def searchMpnF : Nat → Bool → Str → Option Str
  | 0, _, _ => none
  | _ + 1, _, [] => none
  | fuel + 1, lineStart, c :: rest =>
    match (if lineStart then tryMpnAt (c :: rest) else none) with
    | some g => some g
    | none => searchMpnF fuel (c == '\n') rest

def searchMpn (window : Str) : Option Str := searchMpnF window.length true window

/-- The label literal of the manufacturer pattern. -/
def mfLabel : Str := "Manufacturer".data

/-- One attempt of `^Manufacturer\s*:\s*(.+)$` at a line start: label,
greedy whitespace, colon, greedy whitespace, then the captured maximal
run of non-newline characters up to the end of the line (`$` holds there
in MULTILINE mode), which must be non-empty.  When the whitespace run
reaches the very end of the window the engine would backtrack into an
all-whitespace group; the caller strips the group, so the result is the
empty string either way. -/
def tryMfAt (u : Str) : Option Str :=
  if mfLabel.isPrefixOf u then
    let u1 := u.drop mfLabel.length
    match u1.drop (classRun isPySpace u1) with
    | ':' :: u2 =>
      let v := u2.drop (classRun isPySpace u2)
      let g := classRun (fun ch => !(ch == '\n')) v
      if 0 < g then some (v.take g) else none
    | _ => none
  else none

/-- `re.search(r"^Manufacturer\s*:\s*(.+)$", window, re.M)` (`app.py`
line 72). -/
def searchMfF : Nat → Bool → Str → Option Str
  | 0, _, _ => none
  | _ + 1, _, [] => none
  | fuel + 1, lineStart, c :: rest =>
    match (if lineStart then tryMfAt (c :: rest) else none) with
    | some g => some g
    | none => searchMfF fuel (c == '\n') rest

def searchMf (window : Str) : Option Str := searchMfF window.length true window

/-- The label literal of the customer-part pattern. -/
def custLabel : Str := "Cust. Part#".data

/-- `$` of a MULTILINE pattern: end of string or a newline next. -/
def lineEnd : Str → Bool
  | [] => true
  | c :: _ => c == '\n'

/-- One attempt of `^Cust\. Part#\s*:\s*(\S+)$` (case-insensitive) at a
line start: as for the MPN pattern, but the non-whitespace group must
reach the end of its line. -/
def tryCustAt (u : Str) : Option Str :=
  if ciPrefixCmp custLabel u then
    let u1 := u.drop custLabel.length
    match u1.drop (classRun isPySpace u1) with
    | ':' :: u2 =>
      let v := u2.drop (classRun isPySpace u2)
      let g := classRun (fun ch => !(isPySpace ch)) v
      if 0 < g ∧ lineEnd (v.drop g) then some (v.take g) else none
    | _ => none
  else none

/-- `re.search(r"^Cust\. Part#\s*:\s*(\S+)$", window, re.M | re.I)`
(`app.py` line 74). -/
def searchCustF : Nat → Bool → Str → Option Str
  | 0, _, _ => none
  | _ + 1, _, [] => none
  | fuel + 1, lineStart, c :: rest =>
    match (if lineStart then tryCustAt (c :: rest) else none) with
    | some g => some g
    | none => searchCustF fuel (c == '\n') rest

def searchCust (window : Str) : Option Str := searchCustF window.length true window

/- ─────────────  InvoiceParser: document-level fields  ────────────────── -/

/-- Characters of the PO-number class `[A-Za-z0-9-]`. -/
def poGroupChar (c : Char) : Bool := c.isAlphanum || c == '-'

/-- The month-year tail `[A-Za-z]{3}-\d{4}\s+([A-Za-z0-9-]+)` of the
date-line pattern, applied after the day digits and their hyphen. -/
def poDateTail : Str → Option Str
  | m1 :: m2 :: m3 :: '-' :: y1 :: y2 :: y3 :: y4 :: rest =>
    if m1.isAlpha && m2.isAlpha && m3.isAlpha
        && y1.isDigit && y2.isDigit && y3.isDigit && y4.isDigit then
      let w := classRun isPySpace rest
      if 0 < w then
        let g := classRun poGroupChar (rest.drop w)
        if 0 < g then some ((rest.drop w).take g) else none
      else none
    else none
  | _ => none

/-- `re.match(r"^\s*\d{1,2}-[A-Za-z]{3}-\d{4}\s+([A-Za-z0-9-]+)", line)`
(`app.py` line 34), anchored at the line start: leading whitespace, one
or two day digits (two are taken when the hyphen follows them; with two
digits present, backtracking to one digit cannot produce the hyphen),
then the month-year tail. -/
def poDateMatch (line : Str) : Option Str :=
  match line.drop (classRun isPySpace line) with
  | c1 :: c2 :: rest =>
    if c1.isDigit then
      if c2.isDigit then
        match rest with
        | '-' :: rest2 => poDateTail rest2
        | _ => none
      else if c2 == '-' then poDateTail rest
      else none
    else none
  | _ => none

/-- The per-line loop of `parse_po_from_date_line` (`app.py` lines
33-36): the first line whose date match succeeds yields its group. -/
def firstPoDateLine : List Str → Option Str
  | [] => none
  | l :: ls =>
    match poDateMatch l with
    | some g => some g
    | none => firstPoDateLine ls

/-- The fallback literal. -/
def poLit : Str := "PO#".data

/-- One attempt of `PO#\s*([A-Za-z0-9-]+)` (case-insensitive) at a fixed
position. -/
def tryPoAt (u : Str) : Option Str :=
  if ciPrefixCmp poLit u then
    let u1 := u.drop poLit.length
    let v := u1.drop (classRun isPySpace u1)
    let g := classRun poGroupChar v
    if 0 < g then some (v.take g) else none
  else none

/-- `re.search(r"PO#\s*([A-Za-z0-9-]+)", full_text, re.IGNORECASE)`
(`app.py` line 37). -/
def searchPoF : Nat → Str → Option Str
  | 0, _ => none
  | _ + 1, [] => none
  | fuel + 1, c :: rest =>
    match tryPoAt (c :: rest) with
    | some g => some g
    | none => searchPoF fuel rest

/-- `parse_po_from_date_line` (`app.py` lines 32-38): scan the lines for
the date pattern, else fall back to the `PO#` search; no match gives the
empty string. -/
def parse_po_from_date_line (full_text : Str) : Str :=
  match firstPoDateLine (splitlines full_text) with
  | some g => g
  | none => (searchPoF full_text.length full_text).getD []

/-- One attempt of `\b(\d{6}/\d{2})\b` at a fixed position. -/
def trySoAt (prevWord : Bool) (u : Str) : Option Str :=
  if prevWord then none
  else
    match u with
    | c1 :: c2 :: c3 :: c4 :: c5 :: c6 :: '/' :: d1 :: d2 :: rest =>
      if c1.isDigit && c2.isDigit && c3.isDigit && c4.isDigit && c5.isDigit
          && c6.isDigit && d1.isDigit && d2.isDigit && endBoundary rest then
        some [c1, c2, c3, c4, c5, c6, '/', d1, d2]
      else none
    | _ => none

/-- `re.search(r"\b(\d{6}/\d{2})\b", text)` (`app.py` line 54). -/
def searchSoF : Nat → Bool → Str → Option Str
  | 0, _, _ => none
  | _ + 1, _, [] => none
  | fuel + 1, prevWord, c :: rest =>
    match trySoAt prevWord (c :: rest) with
    | some g => some g
    | none => searchSoF fuel (isWordChar c) rest

def searchSo (text : Str) : Option Str := searchSoF text.length false text

/- ─────────────  InvoiceParser: ship-to block  ────────────────────────── -/

/-- Python `str.strip()` (ASCII whitespace). -/
def pyStrip (s : Str) : Str :=
  ((s.dropWhile isPySpace).reverse.dropWhile isPySpace).reverse

/-- Python `str.rstrip(",")`. -/
def rstripComma (s : Str) : Str :=
  (s.reverse.dropWhile (fun c => c == ',')).reverse

/-- `raw.replace('\r\n', '\n').replace('\r', '\n')` (`app.py` line 43). -/
def normNewlines : Str → Str
  | [] => []
  | '\r' :: '\n' :: rest => '\n' :: normNewlines rest
  | '\r' :: rest => '\n' :: normNewlines rest
  | c :: rest => c :: normNewlines rest

/-- Python `str.split('\n')`. -/
def splitOnNl : Str → List Str
  | [] => [[]]
  | '\n' :: rest => [] :: splitOnNl rest
  | c :: rest =>
    match splitOnNl rest with
    | [] => [[c]]
    | l :: ls => (c :: l) :: ls

/-- `re.sub(r"\n\s*\n+", " ", raw)` (`app.py` line 44): each leftmost
newline whose following whitespace run contains another newline is
replaced, together with that run up to its last newline, by one space
(the greedy `\s*` backtracks just enough for the final `\n+`; trailing
non-newline whitespace of the run stays).  `fuel` bounds the remaining
length. -/
def subBlankLines : Nat → Str → Str
  | 0, s => s
  | _ + 1, [] => []
  | fuel + 1, c :: rest =>
    if c == '\n' then
      let run := rest.take (classRun isPySpace rest)
      if '\n' ∈ run then
        let keep := run.reverse.takeWhile (fun ch => !(ch == '\n'))
        ' ' :: subBlankLines fuel (keep.reverse ++ rest.drop (classRun isPySpace rest))
      else c :: subBlankLines fuel rest
    else c :: subBlankLines fuel rest

/-- The ship-to literal. -/
def shipLit : Str := "Ship To:".data

/-- The customer-number literal of the lookahead. -/
def custHashLit : Str := "Customer #:".data

/-- The lookahead `(?=\n\s*Customer #:)` (case-insensitive). -/
def shipLookahead : Str → Bool
  | '\n' :: v => ciPrefixCmp custHashLit (v.drop (classRun isPySpace v))
  | _ => false

/-- All offsets of `u` at which the ship-to lookahead matches. -/
def lookaheadOffsets (u : Str) : List Nat :=
  (List.range (u.length + 1)).filter (fun o => shipLookahead (u.drop o))

/-- One attempt of `Ship To:\s*([\s\S]*?)(?=\n\s*Customer #:)`
(case-insensitive) at a fixed position: after the literal, the greedy
`\s*` takes its maximal run `wmax`, and the lazy group then ends at the
first lookahead position at or beyond it; when every lookahead position
falls inside the whitespace run the engine backtracks the run to the last
such position, leaving an empty group; with no lookahead position at all
the attempt fails. -/
def tryShipAt (u : Str) : Option Str :=
  if ciPrefixCmp shipLit u then
    let v := u.drop shipLit.length
    let wmax := classRun isPySpace v
    match (lookaheadOffsets v).filter (fun o => wmax ≤ o) with
    | o :: _ => some ((v.drop wmax).take (o - wmax))
    | [] =>
      match lookaheadOffsets v with
      | [] => none
      | _ :: _ => some []
  else none

/-- `re.search(r"Ship To:\s*([\s\S]*?)(?=\n\s*Customer #:)", full_text,
re.IGNORECASE)` (`app.py` line 41). -/
def searchShipF : Nat → Str → Option Str
  | 0, _ => none
  | _ + 1, [] => none
  | fuel + 1, c :: rest =>
    match tryShipAt (c :: rest) with
    | some g => some g
    | none => searchShipF fuel rest

/-- `extract_ship_to_block` (`app.py` lines 40-46): search for the block,
strip it, normalise newlines, collapse blank-line runs to single spaces,
then strip each residual line, drop trailing commas, drop empty lines and
join with newlines. -/
def extract_ship_to_block (full_text : Str) : Str :=
  let raw0 :=
    match searchShipF full_text.length full_text with
    | some g => pyStrip g
    | none => []
  let raw2 := subBlankLines (normNewlines raw0).length (normNewlines raw0)
  List.intercalate ['\n']
    (((splitOnNl raw2).filter (fun ln => !(pyStrip ln).isEmpty)).map
      (fun ln => rstripComma (pyStrip ln)))

/- ─────────────  InvoiceParser: records  ──────────────────────────────── -/

/-- The context-window slice `lines[max(0, idx-10) : idx+10]` of
`app.py` line 69 (equally `lines[start:end]` with `start = max(0, idx-10)`
and `end = min(len(lines), idx+10)` in `debug.py` lines 78-80); natural
subtraction realises the clipping at the start. -/
def contextWindowLines (lines : List Str) (idx : Nat) : List Str :=
  (lines.drop (idx - 10)).take (idx + 10 - (idx - 10))

/-- One invoice line-item record: the dict built in `app.py` lines
80-89. -/
structure InvoiceLine where
  refNumber : Str
  mpn : Str
  manufacturer : Str
  quantity : Str
  soNumber : Str
  poNumber : Str
  shipTo : Str
  custPart : Str
deriving DecidableEq

/-- `qty = (re.search(...) or ["", ""])[1]` (`app.py` line 70): the group
with `""` default. -/
def qtyOf (window : Str) : Str := (searchQty window).getD []

/-- `mpn = (re.search(...) or ["", ""])[1]` (`app.py` line 71). -/
def mpnOf (window : Str) : Str := (searchMpn window).getD []

/-- `mf = (re.search(...) or ["", ""])[1].strip()` (`app.py` line 72). -/
def mfOf (window : Str) : Str := pyStrip ((searchMf window).getD [])

/-- The customer-part extraction of `app.py` lines 73-78: sentinel `"NA"`,
overridden only by a non-empty stripped token without a space. -/
def custOf (window : Str) : Str :=
  match searchCust window with
  | none => "NA".data
  | some g =>
    let token := pyStrip g
    if !token.isEmpty && !(token.contains ' ') then token else "NA".data

/-- `extract_all_invoice_info_bytes` (`app.py` lines 48-90) applied to the
text already produced by the PDF-to-text collaborator: empty text gives an
empty list; otherwise the document-level fields are computed once, the
distinct references are collected in first-occurrence order, and each
reference whose first containing line exists yields one record extracted
from its context window (a reference with no containing line is silently
skipped). -/
def extract_all_invoice_info (text : Str) : List InvoiceLine :=
  if text.isEmpty then []
  else
    let po := parse_po_from_date_line text
    let so := (searchSo text).getD []
    let ship := extract_ship_to_block text
    let lines := splitlines text
    let unique_refs := uniqueRefsLoop ((findallRefs text).map Prod.snd) []
    unique_refs.filterMap (fun ref =>
      match lines.findIdx? (fun l => decide (ref <:+: l)) with
      | none => none
      | some idx =>
        let window := List.intercalate ['\n'] (contextWindowLines lines idx)
        some { refNumber := ref, mpn := mpnOf window, manufacturer := mfOf window,
               quantity := qtyOf window, soNumber := so, poNumber := po,
               shipTo := ship, custPart := custOf window })

/-- Modelled from the spec: the context window claimed by C3 — the source
lines "from 10 lines before the line of the identifier's first occurrence
through 10 lines after it", i.e. the slice `lines[max(0, idx-10) : idx+11]`
with the end index included. -/
def contextWindowSpecLines (lines : List Str) (idx : Nat) : List Str :=
  (lines.drop (idx - 10)).take (idx + 11 - (idx - 10))

/-- Concrete 21-line document separating the code's window from the
claimed one (the lines are pairwise distinct). -/
def linesCX : List Str := (List.range 21).map (fun n => List.replicate n 'x')

/-- C3 counterexample: with 21 lines and the anchor on line 10, the
window built by the code is `lines[0:20]`: it misses line 20, the line
10 lines after the anchor, which the claimed window contains even though
no document boundary is hit. -/
theorem contextWindow_misses_tenth_line_after :
    contextWindowLines linesCX 10 ≠ contextWindowSpecLines linesCX 10 ∧
      List.replicate 20 'x' ∉ contextWindowLines linesCX 10 ∧
      List.replicate 20 'x' ∈ contextWindowSpecLines linesCX 10 :=
  ⟨by decide, by decide, by decide⟩

/-- C3 as amended: the context window is the slice
`lines[max(0, idx-10) : idx+10]` — the lines from 10 before the anchor
line through only 9 after it (the slice end `idx+10` is exclusive),
clipped at the document boundaries: its `m`-th entry is line
`max(0, idx-10) + m` of the document. -/
theorem contextWindow_bounds (lines : List Str) (idx : Nat) :
    (contextWindowLines lines idx).length
        = min (idx + 10 - (idx - 10)) (lines.length - (idx - 10)) ∧
      ∀ m (hm : m < (contextWindowLines lines idx).length),
        (contextWindowLines lines idx).get ⟨m, hm⟩ = lines.getD (idx - 10 + m) [] := by
  constructor
  · rw [contextWindowLines, List.length_take, List.length_drop]
  · intro m hm
    have hm2 : m < ((lines.drop (idx - 10)).take (idx + 10 - (idx - 10))).length := hm
    have he : (contextWindowLines lines idx).get ⟨m, hm⟩
        = ((lines.drop (idx - 10)).take (idx + 10 - (idx - 10))).get ⟨m, hm2⟩ := rfl
    have hb : idx - 10 + m < lines.length := by
      rw [List.length_take, List.length_drop] at hm2
      omega
    rw [he, List.get_eq_getElem, List.getElem_take, List.getElem_drop,
      List.getD_eq_getElem lines [] hb]

theorem contextWindow_bounds_witness :
    (contextWindowLines (List.replicate 25 (['y'] : Str)) 10).get ⟨0, by decide⟩
      = (List.replicate 25 (['y'] : Str)).getD 0 [] :=
  (contextWindow_bounds (List.replicate 25 (['y'] : Str)) 10).2 0 (by decide)

/-- C8: the parser applied to the empty string returns the empty
sequence; each per-field extraction is a total function whose value
defaults to the empty string (or the `"NA"` sentinel for the customer
part number) when its pattern does not match, so the parser returns
normally on every input instead of raising. -/
theorem invoiceParser_defaults :
    extract_all_invoice_info [] = [] ∧
      (∀ w : Str, searchQty w = none → qtyOf w = []) ∧
      (∀ w : Str, searchMpn w = none → mpnOf w = []) ∧
      (∀ w : Str, searchMf w = none → mfOf w = []) ∧
      (∀ w : Str, searchCust w = none → custOf w = "NA".data) := by
  refine ⟨rfl, ?_, ?_, ?_, ?_⟩
  · intro w h
    simp [qtyOf, h]
  · intro w h
    simp [mpnOf, h]
  · intro w h
    simp [mfOf, h, pyStrip]
  · intro w h
    simp [custOf, h]

/-- A window in which none of the field patterns matches. -/
def wNone : Str := "hello".data

theorem invoiceParser_defaults_witness :
    qtyOf wNone = [] ∧ mpnOf wNone = [] ∧ mfOf wNone = [] ∧
      custOf wNone = "NA".data :=
  ⟨invoiceParser_defaults.2.1 wNone (by decide),
    invoiceParser_defaults.2.2.1 wNone (by decide),
    invoiceParser_defaults.2.2.2.1 wNone (by decide),
    invoiceParser_defaults.2.2.2.2 wNone (by decide)⟩

/- ─────────────  Lemmas for the reference scanner  ────────────────────── -/

theorem classRun_take : ∀ (p : Char → Bool) (u : Str),
    ∀ c ∈ u.take (classRun p u), p c = true
  | _, [] => by simp [classRun]
  | p, c0 :: rest => by
    intro c hc
    rw [classRun] at hc
    by_cases hp : p c0
    · rw [if_pos hp, List.take_succ_cons] at hc
      rcases List.mem_cons.mp hc with rfl | hc2
      · exact hp
      · exact classRun_take p rest c hc2
    · rw [if_neg hp, List.take_zero] at hc
      exact absurd hc (List.not_mem_nil c)

theorem take_seven_add (a1 a2 a3 a4 a5 a6 a7 : Char) (w : Str) (n : Nat) :
    (a1 :: a2 :: a3 :: a4 :: a5 :: a6 :: a7 :: w).take (7 + n)
      = a1 :: a2 :: a3 :: a4 :: a5 :: a6 :: a7 :: w.take n := by
  have h7 : 7 + n = ((((((n + 1) + 1) + 1) + 1) + 1) + 1) + 1 := by omega
  rw [h7]
  simp only [List.take_succ_cons]

theorem matchRefAt_pos (p : Bool) (u : Str) (k : Nat)
    (h : matchRefAt p u = some k) : 0 < k := by
  simp only [matchRefAt] at h
  split at h
  · simp at h
  · split at h
    · split at h
      · split at h
        · simp at h
        · split at h
          · split at h
            · injection h with h2
              omega
            · injection h with h2
              omega
          · split at h
            · injection h with h2
              omega
            · simp at h
      · simp at h
    · simp at h

theorem take7_chars (c1 c2 c3 c4 c5 c6 : Char) (w : Str) (n : Nat)
    (hdig : ((((c1.isDigit = true ∧ c2.isDigit = true) ∧ c3.isDigit = true)
        ∧ c4.isDigit = true) ∧ c5.isDigit = true) ∧ c6.isDigit = true)
    (hrest : ∀ c ∈ w.take n, c.isDigit = true ∨ c = '-' ∨ c = '.') :
    ∀ c ∈ (c1 :: c2 :: c3 :: c4 :: c5 :: c6 :: '-' :: w).take (7 + n),
      c.isDigit = true ∨ c = '-' ∨ c = '.' := by
  rw [take_seven_add]
  intro c hc
  simp only [List.mem_cons] at hc
  rcases hc with rfl | rfl | rfl | rfl | rfl | rfl | rfl | hc
  · exact Or.inl hdig.1.1.1.1.1
  · exact Or.inl hdig.1.1.1.1.2
  · exact Or.inl hdig.1.1.1.2
  · exact Or.inl hdig.1.1.2
  · exact Or.inl hdig.1.2
  · exact Or.inl hdig.2
  · exact Or.inr (Or.inl rfl)
  · exact hrest c hc

theorem matchRefAt_chars (p : Bool) (u : Str) (k : Nat)
    (h : matchRefAt p u = some k) :
    ∀ c ∈ u.take k, c.isDigit = true ∨ c = '-' ∨ c = '.' := by
  simp only [matchRefAt] at h
  split at h
  · simp at h
  · split at h
    case _ c1 c2 c3 c4 c5 c6 w =>
      split at h
      case isTrue hdig =>
        simp only [Bool.and_eq_true] at hdig
        split at h
        · simp at h
        case isFalse hd0 =>
          split at h
          case _ w2 hdrop =>
            have hw2 : ∀ c ∈ w.take (classRun Char.isDigit w + (classRun Char.isDigit w2 + 1)),
                c.isDigit = true ∨ c = '-' ∨ c = '.' := by
              intro c hc
              rw [List.take_add, hdrop, List.take_succ_cons] at hc
              rcases List.mem_append.mp hc with hc2 | hc2
              · exact Or.inl (classRun_take Char.isDigit w c hc2)
              · rcases List.mem_cons.mp hc2 with rfl | hc3
                · exact Or.inr (Or.inr rfl)
                · exact Or.inl (classRun_take Char.isDigit w2 c hc3)
            split at h
            · injection h with h2
              subst h2
              rw [show 7 + classRun Char.isDigit w + 1 + classRun Char.isDigit w2
                  = 7 + (classRun Char.isDigit w + (classRun Char.isDigit w2 + 1)) from by omega]
              exact take7_chars c1 c2 c3 c4 c5 c6 w _ hdig hw2
            · injection h with h2
              subst h2
              exact take7_chars c1 c2 c3 c4 c5 c6 w _ hdig
                (fun c hc => Or.inl (classRun_take Char.isDigit w c hc))
          case _ hdrop =>
            split at h
            · injection h with h2
              subst h2
              exact take7_chars c1 c2 c3 c4 c5 c6 w _ hdig
                (fun c hc => Or.inl (classRun_take Char.isDigit w c hc))
            · simp at h
      · simp at h
    · simp at h

theorem scanRefs_pos_le : ∀ (fuel : Nat) (w : Bool) (pos : Nat) (u : Str),
    ∀ q ∈ scanRefs fuel w pos u, pos ≤ q.1
  | 0, _, _, _ => by simp [scanRefs]
  | _ + 1, _, _, [] => by simp [scanRefs]
  | fuel + 1, w, pos, c :: rest => by
    intro q hq
    rw [scanRefs] at hq
    split at hq
    case _ k hk =>
      rcases List.mem_cons.mp hq with rfl | hq2
      · exact Nat.le_refl _
      · have := scanRefs_pos_le fuel true (pos + k) ((c :: rest).drop k) q hq2
        omega
    · have := scanRefs_pos_le fuel (isWordChar c) (pos + 1) rest q hq
      omega

theorem scanRefs_fst_pairwise : ∀ (fuel : Nat) (w : Bool) (pos : Nat) (u : Str),
    (scanRefs fuel w pos u).Pairwise (fun q1 q2 => q1.1 < q2.1)
  | 0, _, _, _ => by simp [scanRefs]
  | _ + 1, _, _, [] => by simp [scanRefs]
  | fuel + 1, w, pos, c :: rest => by
    rw [scanRefs]
    split
    case _ k hk =>
      refine List.Pairwise.cons ?_ (scanRefs_fst_pairwise fuel true (pos + k) _)
      intro q hq
      have h1 := scanRefs_pos_le fuel true (pos + k) ((c :: rest).drop k) q hq
      have h2 := matchRefAt_pos w (c :: rest) k hk
      omega
    · exact scanRefs_fst_pairwise fuel (isWordChar c) (pos + 1) rest

theorem scanRefs_snd_sub : ∀ (fuel : Nat) (w : Bool) (pos : Nat) (u : Str),
    ∀ q ∈ scanRefs fuel w pos u, q.2 <:+: u
  | 0, _, _, _ => by simp [scanRefs]
  | _ + 1, _, _, [] => by simp [scanRefs]
  | fuel + 1, w, pos, c :: rest => by
    intro q hq
    rw [scanRefs] at hq
    split at hq
    case _ k hk =>
      rcases List.mem_cons.mp hq with rfl | hq2
      · exact ⟨[], (c :: rest).drop k, by simp [List.take_append_drop]⟩
      · exact (scanRefs_snd_sub fuel true (pos + k) _ q hq2).trans
          (List.drop_suffix k (c :: rest)).isInfix
    · exact (scanRefs_snd_sub fuel (isWordChar c) (pos + 1) rest q hq).trans
        (List.IsSuffix.isInfix ⟨[c], rfl⟩)

theorem scanRefs_snd_ne_nil : ∀ (fuel : Nat) (w : Bool) (pos : Nat) (u : Str),
    ∀ q ∈ scanRefs fuel w pos u, q.2 ≠ []
  | 0, _, _, _ => by simp [scanRefs]
  | _ + 1, _, _, [] => by simp [scanRefs]
  | fuel + 1, w, pos, c :: rest => by
    intro q hq
    rw [scanRefs] at hq
    split at hq
    case _ k hk =>
      rcases List.mem_cons.mp hq with rfl | hq2
      · have h2 := matchRefAt_pos w (c :: rest) k hk
        obtain ⟨k2, rfl⟩ := Nat.exists_eq_succ_of_ne_zero (by omega : k ≠ 0)
        simp [List.take_succ_cons]
      · exact scanRefs_snd_ne_nil fuel true (pos + k) _ q hq2
    · exact scanRefs_snd_ne_nil fuel (isWordChar c) (pos + 1) rest q hq

theorem scanRefs_snd_chars : ∀ (fuel : Nat) (w : Bool) (pos : Nat) (u : Str),
    ∀ q ∈ scanRefs fuel w pos u, ∀ c ∈ q.2, c.isDigit = true ∨ c = '-' ∨ c = '.'
  | 0, _, _, _ => by simp [scanRefs]
  | _ + 1, _, _, [] => by simp [scanRefs]
  | fuel + 1, w, pos, c :: rest => by
    intro q hq
    rw [scanRefs] at hq
    split at hq
    case _ k hk =>
      rcases List.mem_cons.mp hq with rfl | hq2
      · exact matchRefAt_chars w (c :: rest) k hk
      · exact scanRefs_snd_chars fuel true (pos + k) _ q hq2
    · exact scanRefs_snd_chars fuel (isWordChar c) (pos + 1) rest q hq

/- ─────────────  Lemmas for line splitting  ───────────────────────────── -/

theorem refChar_not_boundary (c : Char)
    (hc : c.isDigit = true ∨ c = '-' ∨ c = '.') : isLineBoundary c = false := by
  by_contra hb
  rw [Bool.not_eq_false] at hb
  rw [isLineBoundary] at hb
  have hb2 : c ∈ lineBoundaryChars := List.mem_of_elem_eq_true hb
  simp only [lineBoundaryChars, List.mem_cons, List.not_mem_nil, or_false] at hb2
  rcases hb2 with rfl | rfl | rfl | rfl | rfl | rfl | rfl | rfl | rfl | rfl <;>
    rcases hc with h | h | h <;> exact absurd h (by decide)

theorem splitlines_ne_nil : ∀ (t : Str), t ≠ [] → splitlines t ≠ [] := by
  intro t ht
  induction t using splitlines.induct with
  | case1 => exact absurd rfl ht
  | case2 rest ih =>
    rw [splitlines.eq_2]
    simp
  | case3 c rest hne hb ih =>
    rw [splitlines.eq_3 c rest hne, if_pos hb]
    simp
  | case4 c rest hne hb hrest ih =>
    rw [splitlines.eq_3 c rest hne, if_neg hb, hrest]
    simp
  | case5 c rest hne hb l ls hrest ih =>
    rw [splitlines.eq_3 c rest hne, if_neg hb, hrest]
    simp

theorem splitlines_head_covers : ∀ (t m : Str), m <+: t → m ≠ [] →
    (∀ c ∈ m, isLineBoundary c = false) →
    ∃ L ls, splitlines t = L :: ls ∧ m <+: L := by
  intro t
  induction t using splitlines.induct with
  | case1 =>
    intro m hm hne _
    rw [List.prefix_nil] at hm
    exact absurd hm hne
  | case2 rest ih =>
    intro m hm hne hchars
    obtain ⟨m0, mrest, rfl⟩ := List.exists_cons_of_ne_nil hne
    rw [List.cons_prefix_cons] at hm
    have hc := hchars m0 (List.mem_cons_self _ _)
    rw [hm.1] at hc
    exact absurd hc (by decide)
  | case3 c rest hne2 hb ih =>
    intro m hm hne hchars
    obtain ⟨m0, mrest, rfl⟩ := List.exists_cons_of_ne_nil hne
    rw [List.cons_prefix_cons] at hm
    have hc := hchars m0 (List.mem_cons_self _ _)
    rw [hm.1, hb] at hc
    exact absurd hc (by simp)
  | case4 c rest hne2 hb hrest ih =>
    intro m hm hne hchars
    obtain ⟨m0, mrest, rfl⟩ := List.exists_cons_of_ne_nil hne
    rw [List.cons_prefix_cons] at hm
    have hrnil : rest = [] := by
      by_contra hr
      exact splitlines_ne_nil rest hr hrest
    subst hrnil
    rw [List.prefix_nil] at hm
    refine ⟨[c], [], ?_, ?_⟩
    · rw [splitlines.eq_3 c [] hne2, if_neg hb, hrest]
    · rw [hm.1, hm.2]
  | case5 c rest hne2 hb l ls hrest ih =>
    intro m hm hne hchars
    obtain ⟨m0, mrest, rfl⟩ := List.exists_cons_of_ne_nil hne
    rw [List.cons_prefix_cons] at hm
    obtain ⟨rfl, hm2⟩ := hm
    refine ⟨m0 :: l, ls, ?_, ?_⟩
    · rw [splitlines.eq_3 m0 rest hne2, if_neg hb, hrest]
    · by_cases hm0 : mrest = []
      · rw [hm0]
        exact ⟨l, rfl⟩
      · obtain ⟨L2, ls2, hsp, hpre⟩ := ih mrest hm2 hm0
          (fun c2 hc2 => hchars c2 (List.mem_cons_of_mem _ hc2))
        rw [hrest] at hsp
        injection hsp with h1 _
        rw [← h1] at hpre
        exact List.cons_prefix_cons.mpr ⟨rfl, hpre⟩

theorem splitlines_covers : ∀ (t m : Str), m <:+: t → m ≠ [] →
    (∀ c ∈ m, isLineBoundary c = false) →
    ∃ L ∈ splitlines t, m <:+: L := by
  intro t
  induction t using splitlines.induct with
  | case1 =>
    intro m hm hne _
    rw [List.infix_nil] at hm
    exact absurd hm hne
  | case2 rest ih =>
    intro m hm hne hchars
    rcases List.infix_cons_iff.mp hm with hp | hi
    · obtain ⟨L, ls, hsp, hpre⟩ := splitlines_head_covers _ m hp hne hchars
      exact ⟨L, by rw [hsp]; exact List.mem_cons_self _ _, hpre.isInfix⟩
    · rcases List.infix_cons_iff.mp hi with hp | hi2
      · obtain ⟨m0, mrest, rfl⟩ := List.exists_cons_of_ne_nil hne
        rw [List.cons_prefix_cons] at hp
        have hc := hchars m0 (List.mem_cons_self _ _)
        rw [hp.1] at hc
        exact absurd hc (by decide)
      · obtain ⟨L, hL, hinf⟩ := ih m hi2 hne hchars
        refine ⟨L, ?_, hinf⟩
        rw [splitlines.eq_2]
        exact List.mem_cons_of_mem _ hL
  | case3 c rest hne2 hb ih =>
    intro m hm hne hchars
    rcases List.infix_cons_iff.mp hm with hp | hi
    · obtain ⟨L, ls, hsp, hpre⟩ := splitlines_head_covers _ m hp hne hchars
      exact ⟨L, by rw [hsp]; exact List.mem_cons_self _ _, hpre.isInfix⟩
    · obtain ⟨L, hL, hinf⟩ := ih m hi hne hchars
      refine ⟨L, ?_, hinf⟩
      rw [splitlines.eq_3 c rest hne2, if_pos hb]
      exact List.mem_cons_of_mem _ hL
  | case4 c rest hne2 hb hrest ih =>
    intro m hm hne hchars
    rcases List.infix_cons_iff.mp hm with hp | hi
    · obtain ⟨L, ls, hsp, hpre⟩ := splitlines_head_covers _ m hp hne hchars
      exact ⟨L, by rw [hsp]; exact List.mem_cons_self _ _, hpre.isInfix⟩
    · have hrnil : rest = [] := by
        by_contra hr
        exact splitlines_ne_nil rest hr hrest
      subst hrnil
      rw [List.infix_nil] at hi
      exact absurd hi hne
  | case5 c rest hne2 hb l ls hrest ih =>
    intro m hm hne hchars
    rcases List.infix_cons_iff.mp hm with hp | hi
    · obtain ⟨L, ls2, hsp, hpre⟩ := splitlines_head_covers _ m hp hne hchars
      exact ⟨L, by rw [hsp]; exact List.mem_cons_self _ _, hpre.isInfix⟩
    · obtain ⟨L, hL, hinf⟩ := ih m hi hne hchars
      rw [hrest] at hL
      rcases List.mem_cons.mp hL with rfl | hL2
      · refine ⟨c :: L, ?_, hinf.trans ⟨[c], [], by simp⟩⟩
        rw [splitlines.eq_3 c rest hne2, if_neg hb, hrest]
        exact List.mem_cons_self _ _
      · refine ⟨L, ?_, hinf⟩
        rw [splitlines.eq_3 c rest hne2, if_neg hb, hrest]
        exact List.mem_cons_of_mem _ hL2

/- ─────────────  Lemmas for reference dedup and ordering  ─────────────── -/

theorem dedupFirst_mem : ∀ (l seen : List Str), ∀ y ∈ dedupFirst l seen,
    y ∈ l ∧ y ∉ seen
  | [], _ => by simp [dedupFirst]
  | r :: rest, seen => by
    intro y hy
    rw [dedupFirst] at hy
    split at hy
    · obtain ⟨h1, h2⟩ := dedupFirst_mem rest seen y hy
      exact ⟨List.mem_cons_of_mem _ h1, h2⟩
    · rcases List.mem_cons.mp hy with rfl | hy2
      · exact ⟨List.mem_cons_self _ _, by assumption⟩
      · obtain ⟨h1, h2⟩ := dedupFirst_mem rest (r :: seen) y hy2
        exact ⟨List.mem_cons_of_mem _ h1, fun hc => h2 (List.mem_cons_of_mem _ hc)⟩

theorem dedupFirst_nodup : ∀ (l seen : List Str), (dedupFirst l seen).Nodup
  | [], _ => by simp [dedupFirst]
  | r :: rest, seen => by
    rw [dedupFirst]
    split
    · exact dedupFirst_nodup rest seen
    · rw [List.nodup_cons]
      refine ⟨fun hc => ?_, dedupFirst_nodup rest (r :: seen)⟩
      exact (dedupFirst_mem rest (r :: seen) r hc).2 (List.mem_cons_self _ _)

/-- Index of the first occurrence of `r` (length of the list when `r` is
absent); avoids type-class indirection in the ordering proofs. -/
def idxOfStr (r : Str) : List Str → Nat
  | [] => 0
  | x :: xs => if x = r then 0 else idxOfStr r xs + 1

theorem idxOfStr_cons_self (r : Str) (xs : List Str) :
    idxOfStr r (r :: xs) = 0 := by
  rw [idxOfStr, if_pos rfl]

theorem idxOfStr_cons_ne (r x : Str) (xs : List Str) (h : x ≠ r) :
    idxOfStr r (x :: xs) = idxOfStr r xs + 1 := by
  rw [idxOfStr, if_neg h]

theorem dedupFirst_pairwise_idx : ∀ (l seen : List Str),
    (dedupFirst l seen).Pairwise (fun a b => idxOfStr a l < idxOfStr b l)
  | [], _ => by simp [dedupFirst]
  | x :: xs, seen => by
    rw [dedupFirst]
    split
    case isTrue hx =>
      refine (dedupFirst_pairwise_idx xs seen).imp_of_mem ?_
      intro a b ha hb hab
      have hha := dedupFirst_mem xs seen a ha
      have hhb := dedupFirst_mem xs seen b hb
      have hax : x ≠ a := fun hc => hha.2 (hc ▸ hx)
      have hbx : x ≠ b := fun hc => hhb.2 (hc ▸ hx)
      rw [idxOfStr_cons_ne a x xs hax, idxOfStr_cons_ne b x xs hbx]
      omega
    case isFalse hx =>
      refine List.Pairwise.cons ?_ ?_
      · intro b hb
        have hhb := dedupFirst_mem xs (x :: seen) b hb
        have hbx : x ≠ b := fun hc => hhb.2 (hc ▸ List.mem_cons_self _ _)
        rw [idxOfStr_cons_self, idxOfStr_cons_ne b x xs hbx]
        omega
      · refine (dedupFirst_pairwise_idx xs (x :: seen)).imp_of_mem ?_
        intro a b ha hb hab
        have hha := dedupFirst_mem xs (x :: seen) a ha
        have hhb := dedupFirst_mem xs (x :: seen) b hb
        have hax : x ≠ a := fun hc => hha.2 (hc ▸ List.mem_cons_self _ _)
        have hbx : x ≠ b := fun hc => hhb.2 (hc ▸ List.mem_cons_self _ _)
        rw [idxOfStr_cons_ne a x xs hax, idxOfStr_cons_ne b x xs hbx]
        omega

/-- The text position of the first scanner match whose text is `r`. -/
def posOfPairs (pairs : List (Nat × Str)) (r : Str) : Nat :=
  ((pairs.find? (fun q => decide (q.2 = r))).map Prod.fst).getD 0

/-- The position in the document of the first occurrence of reference
`r` among the scanner's matches. -/
def firstRefPos (text : Str) (r : Str) : Nat :=
  posOfPairs (findallRefs text) r

theorem posOfPairs_mono : ∀ (pairs : List (Nat × Str)),
    (pairs.map Prod.fst).Pairwise (fun p1 p2 => p1 < p2) →
    ∀ a b : Str, a ∈ pairs.map Prod.snd → b ∈ pairs.map Prod.snd →
    idxOfStr a (pairs.map Prod.snd) < idxOfStr b (pairs.map Prod.snd) →
    posOfPairs pairs a < posOfPairs pairs b
  | [] => by simp
  | q :: qs => by
    intro hpw a b ha hb hlt
    by_cases hbq : q.2 = b
    · rw [List.map_cons, ← hbq, idxOfStr_cons_self] at hlt
      omega
    by_cases haq : q.2 = a
    · have hfa : (q :: qs).find? (fun p => decide (p.2 = a)) = some q := by
        rw [List.find?_cons_of_pos]
        simp [haq]
      have hbmem : b ∈ qs.map Prod.snd := by
        rw [List.map_cons] at hb
        rcases List.mem_cons.mp hb with hb1 | hb2
        · exact absurd hb1.symm hbq
        · exact hb2
      have hfsome : (qs.find? (fun p => decide (p.2 = b))).isSome = true := by
        rw [List.find?_isSome]
        obtain ⟨p, hp, rfl⟩ := List.mem_map.mp hbmem
        exact ⟨p, hp, by simp⟩
      obtain ⟨pb, hpb⟩ := Option.isSome_iff_exists.mp hfsome
      have hfb : (q :: qs).find? (fun p => decide (p.2 = b)) = some pb := by
        rw [List.find?_cons_of_neg, hpb]
        simp [hbq]
      have hmem := List.mem_of_find?_eq_some hpb
      have hpwc : (q.1 :: qs.map Prod.fst).Pairwise (fun p1 p2 => p1 < p2) := by
        rw [List.map_cons] at hpw
        exact hpw
      have hhead := (List.pairwise_cons.mp hpwc).1 pb.1
        (List.mem_map_of_mem Prod.fst hmem)
      rw [posOfPairs, posOfPairs, hfa, hfb]
      simpa using hhead
    · have hamem : a ∈ qs.map Prod.snd := by
        rw [List.map_cons] at ha
        rcases List.mem_cons.mp ha with ha1 | ha2
        · exact absurd ha1.symm haq
        · exact ha2
      have hbmem : b ∈ qs.map Prod.snd := by
        rw [List.map_cons] at hb
        rcases List.mem_cons.mp hb with hb1 | hb2
        · exact absurd hb1.symm hbq
        · exact hb2
      have hfa : (q :: qs).find? (fun p => decide (p.2 = a))
          = qs.find? (fun p => decide (p.2 = a)) := by
        rw [List.find?_cons_of_neg]
        simp [haq]
      have hfb : (q :: qs).find? (fun p => decide (p.2 = b))
          = qs.find? (fun p => decide (p.2 = b)) := by
        rw [List.find?_cons_of_neg]
        simp [hbq]
      have hlt2 : idxOfStr a (qs.map Prod.snd) < idxOfStr b (qs.map Prod.snd) := by
        rw [List.map_cons, idxOfStr_cons_ne a q.2 _ haq,
          idxOfStr_cons_ne b q.2 _ hbq] at hlt
        omega
      have hpw2 : (qs.map Prod.fst).Pairwise (fun p1 p2 => p1 < p2) := by
        rw [List.map_cons] at hpw
        exact hpw.of_cons
      have hrec := posOfPairs_mono qs hpw2 a b hamem hbmem hlt2
      rw [posOfPairs, posOfPairs, hfa, hfb]
      exact hrec

theorem filterMap_records_map (refs lines : List Str) (f : Str → Nat → InvoiceLine)
    (hf : ∀ r idx, (f r idx).refNumber = r) :
    (refs.filterMap (fun ref =>
      match lines.findIdx? (fun l => decide (ref <:+: l)) with
      | none => none
      | some idx => some (f ref idx))).map InvoiceLine.refNumber
    = refs.filter (fun ref => (lines.findIdx? (fun l => decide (ref <:+: l))).isSome) := by
  induction refs with
  | nil => rfl
  | cons r rest ih =>
    rw [List.filterMap_cons, List.filter_cons]
    cases hfi : lines.findIdx? (fun l => decide (r <:+: l)) with
    | none => simp [hfi, ih]
    | some idx => simp [hfi, ih, hf]

theorem parse_refs_map (text : Str) (h : text.isEmpty = false) :
    (extract_all_invoice_info text).map InvoiceLine.refNumber
      = (uniqueRefsLoop ((findallRefs text).map Prod.snd) []).filter
          (fun ref =>
            ((splitlines text).findIdx? (fun l => decide (ref <:+: l))).isSome) := by
  rw [extract_all_invoice_info, if_neg (by simp [h])]
  exact filterMap_records_map _ _ _ (fun r idx => rfl)

/-- C7: for every document text, the records returned by the parser carry
pairwise-distinct `refNumber` values, ordered by the position of each
reference's first occurrence in the raw text; a text without any
reference identifier yields the empty sequence rather than an error. -/
theorem invoiceParser_refs_unique_ordered (text : Str) :
    ((extract_all_invoice_info text).map InvoiceLine.refNumber).Nodup ∧
      ((extract_all_invoice_info text).map InvoiceLine.refNumber).Pairwise
        (fun r1 r2 => firstRefPos text r1 < firstRefPos text r2) ∧
      (findallRefs text = [] → extract_all_invoice_info text = []) := by
  by_cases hemp : text.isEmpty
  · have hparse : extract_all_invoice_info text = [] := by
      rw [extract_all_invoice_info, if_pos hemp]
    rw [hparse]
    exact ⟨List.nodup_nil, List.Pairwise.nil, fun _ => rfl⟩
  · have h0 : text.isEmpty = false := Bool.eq_false_iff.mpr hemp
    have hmap := parse_refs_map text h0
    have hbridge : uniqueRefsLoop ((findallRefs text).map Prod.snd) []
        = dedupFirst ((findallRefs text).map Prod.snd) [] := by
      rw [uniqueRefsLoop_eq_dedupFirst, List.nil_append]
    refine ⟨?_, ?_, ?_⟩
    · rw [hmap, hbridge]
      exact List.Nodup.filter _ (dedupFirst_nodup _ [])
    · rw [hmap, hbridge]
      have hpw := dedupFirst_pairwise_idx ((findallRefs text).map Prod.snd) []
      refine (List.Pairwise.sublist (List.filter_sublist _) hpw).imp_of_mem ?_
      intro r1 r2 h1 h2 hidx
      have hm1 : r1 ∈ (findallRefs text).map Prod.snd :=
        (dedupFirst_mem _ [] r1 (List.mem_of_mem_filter h1)).1
      have hm2 : r2 ∈ (findallRefs text).map Prod.snd :=
        (dedupFirst_mem _ [] r2 (List.mem_of_mem_filter h2)).1
      have hfst : ((findallRefs text).map Prod.fst).Pairwise (fun p1 p2 => p1 < p2) :=
        List.pairwise_map.mpr (scanRefs_fst_pairwise text.length false 0 text)
      exact posOfPairs_mono (findallRefs text) hfst r1 r2 hm1 hm2 hidx
    · intro hf
      rw [extract_all_invoice_info, if_neg (by simp [h0])]
      simp [hf, uniqueRefsLoop]

theorem invoiceParser_refs_unique_ordered_witness :
    extract_all_invoice_info [] = [] :=
  (invoiceParser_refs_unique_ordered []).2.2 rfl

/-- C10: the skip branch for a reference with no containing source line is
unreachable: a reference-identifier match consists of digits, hyphens and
dots only, so it cannot span a line boundary and always lies inside some
line of the document; the parser therefore emits exactly one record per
distinct reference identifier, in first-occurrence order. -/
theorem refSkipBranch_unreachable (text : Str) :
    (extract_all_invoice_info text).map InvoiceLine.refNumber
      = uniqueRefsLoop ((findallRefs text).map Prod.snd) [] := by
  by_cases hemp : text.isEmpty
  · have htn : text = [] := by
      cases text
      · rfl
      · exact absurd hemp (by simp)
    subst htn
    rw [extract_all_invoice_info]
    simp [findallRefs, scanRefs, uniqueRefsLoop]
  · have h0 : text.isEmpty = false := Bool.eq_false_iff.mpr hemp
    rw [parse_refs_map text h0]
    apply List.filter_eq_self.mpr
    intro ref href
    rw [uniqueRefsLoop_eq_dedupFirst, List.nil_append] at href
    have hraw : ref ∈ (findallRefs text).map Prod.snd :=
      (dedupFirst_mem _ [] ref href).1
    obtain ⟨q, hq, rfl⟩ := List.mem_map.mp hraw
    have hinf : q.2 <:+: text := scanRefs_snd_sub text.length false 0 text q hq
    have hne2 : q.2 ≠ [] := scanRefs_snd_ne_nil text.length false 0 text q hq
    have hchars : ∀ c ∈ q.2, isLineBoundary c = false := fun c hc =>
      refChar_not_boundary c (scanRefs_snd_chars text.length false 0 text q hq c hc)
    obtain ⟨L, hL, hLinf⟩ := splitlines_covers text q.2 hinf hne2 hchars
    rw [List.findIdx?_isSome, List.any_eq_true]
    exact ⟨L, hL, by simp [hLinf]⟩
